import Mathlib

/-!
Verification of the DexArm sketch pipeline.

Shallow embedding of the core components of the repository:
* `DexArmController.move_to_safe` (dexarm_controller.py) — Z-aware safe motion,
* `Dexarm.send_gcode` / `Dexarm.go_home` / `DexArmController.home`
  (dexarm_tests/dexarm.py, dexarm_controller.py) — the homing lifecycle,
* `SVGPathParser.convert_to_drawing_commands` / `_transform_point` /
  `_is_in_bounds` (svg_parser.py) — the command generator,
* `PlotterSVGGenerator._optimize_path_order` / `_point_distance`
  (svg_plotter_methods.py, identical in svg_clean_centerline.py) — the greedy
  path-order optimizer.

Machine floats are modelled by `ℚ` (exact arithmetic) except for the optimizer,
whose `np.sqrt` distances are modelled by `Real.sqrt` over `ℝ`.
-/

namespace DexArm

/-- An emitted G0/G1 sub-move: `fast_move_to(x, y, z, feedrate)`. -/
structure GCmd where
  x : ℚ
  y : ℚ
  z : ℚ
  f : ℚ
  deriving DecidableEq, Repr

/-- A parsed `M114` position report, as returned by `Dexarm.get_position`. -/
structure Pos where
  x : ℚ
  y : ℚ
  z : ℚ
  deriving DecidableEq, Repr

/-- Errors raised by `DexArmController.move_to_safe`. -/
inductive MoveErr where
  | notConnected
  deriving DecidableEq, Repr

/-- Embedding of `DexArmController.move_to_safe` (dexarm_controller.py,
lines 133–185).  Inputs: the connection flag, the target `(x, y, z)` and
`feedrate`, the optional `current_z` argument, and the result `posRead` that
`self.get_position()` would return when consulted (`none` models a failed
position read, which `get_position` signals by returning `None`).  The result
is the list of sub-moves emitted via `self._dexarm.fast_move_to` together with
the returned final Z. -/
def move_to_safe (connected : Bool) (x y z feedrate : ℚ)
    (current_z : Option ℚ) (posRead : Option Pos) :
    Except MoveErr (List GCmd × ℚ) :=
  if ¬ connected then .error .notConnected
  else
    match current_z with
    | none =>
      match posRead with
      | some pos => moveWithZ x y z feedrate pos.z
      | none =>
        -- "If we can't get position, fall back to simple move"
        .ok ([⟨x, y, z, feedrate⟩], z)
    | some cz => moveWithZ x y z feedrate cz
where
  /-- The branch of `move_to_safe` below `z_diff = z - current_z`. -/
  moveWithZ (x y z feedrate cz : ℚ) : Except MoveErr (List GCmd × ℚ) :=
    if |z - cz| < 1/2 then
      -- "Z is essentially the same, just move directly"
      .ok ([⟨x, y, z, feedrate⟩], z)
    else if z - cz > 0 then
      -- "Moving UP (pen up) - Lift Z first, then move XY"
      -- source: fast_move_to(current_z, current_z, z, 10000)
      .ok ([⟨cz, cz, z, 10000⟩, ⟨x, y, z, 10000⟩], z)
    else
      -- "Moving DOWN (pen down) - Move XY first, then lower Z"
      .ok ([⟨x, y, cz, 10000⟩, ⟨x, y, z, feedrate⟩], z)

/-- A machine pose `(x, y, z)` used to phrase the no-diagonal-drag invariant. -/
structure Pose where
  x : ℚ
  y : ℚ
  z : ℚ
  deriving DecidableEq, Repr

/-- The chain of poses visited when the sub-moves `cmds` are executed from the
starting pose `p0`. -/
def subMovePoses (p0 : Pose) (cmds : List GCmd) : List Pose :=
  p0 :: cmds.map (fun c => ⟨c.x, c.y, c.z⟩)

/-- No sub-move changes XY while any part of its travel is below `thresh`:
for every consecutive pair of visited poses, an XY change forces both the
starting and the ending Z of that sub-move to be at least `thresh`. -/
def noDiagonalDrag (thresh : ℚ) (p0 : Pose) (cmds : List GCmd) : Prop :=
  List.Chain' (fun a b => (b.x ≠ a.x ∨ b.y ≠ a.y) → thresh ≤ min a.z b.z)
    (subMovePoses p0 cmds)

end DexArm

namespace DexArm

/-! ## Claims C1, C2, C10 about `move_to_safe` -/

/-- C1 (code bug, evaluation at the failing input).  Pre-call pose
`(100, 50, 0)`, known `current_z = 0`, target `(120, 60, 10)`: the lift branch
fires (`z` exceeds `current_z` by at least `0.5`), but the first emitted
sub-move's XY is `(current_z, current_z) = (0, 0)`, not the pre-call XY
`(100, 50)`: the source passes `current_z` as both the X and the Y argument of
`fast_move_to`, so the claimed raise-Z-in-place does not happen. -/
theorem c1_lift_not_in_place :
    (10 : ℚ) - 0 ≥ 1/2 ∧
    move_to_safe true 120 60 10 2000 (some 0) none =
      .ok ([⟨0, 0, 10, 10000⟩, ⟨120, 60, 10, 10000⟩], 10) ∧
    ¬ (∀ c cs r, move_to_safe true 120 60 10 2000 (some 0) none = .ok (c :: cs, r) →
          c.x = 100 ∧ c.y = 50) := by
  have heval : move_to_safe true 120 60 10 2000 (some 0) none =
      .ok ([⟨0, 0, 10, 10000⟩, ⟨120, 60, 10, 10000⟩], 10) := by
    simp only [move_to_safe, move_to_safe.moveWithZ]
    norm_num
  refine ⟨by norm_num, heval, fun h => ?_⟩
  have h2 := h ⟨0, 0, 10, 10000⟩ [⟨120, 60, 10, 10000⟩] 10 heval
  have : (0 : ℚ) = 100 := h2.1
  norm_num at this

/-- C2 (code bug, evaluation at the failing input).  Same call as C1:
lifting from Z `0` to Z `10` from pre-call pose `(100, 50, 0)`.  The claimed
invariant — no sub-move changes XY while its travel dips below
`max(prevZ, targetZ) - 0.5 = 9.5` — is violated: the first emitted sub-move
travels from `(100, 50, 0)` to `(0, 0, 10)`, an XY change whose starting Z is
`0 < 9.5` (the same `fast_move_to(current_z, current_z, ...)` slip). -/
theorem c2_diagonal_drag_when_lifting :
    move_to_safe true 120 60 10 2000 (some 0) none =
      .ok ([⟨0, 0, 10, 10000⟩, ⟨120, 60, 10, 10000⟩], 10) ∧
    ¬ noDiagonalDrag (max 0 10 - 1/2) ⟨100, 50, 0⟩
        [⟨0, 0, 10, 10000⟩, ⟨120, 60, 10, 10000⟩] := by
  constructor
  · simp only [move_to_safe, move_to_safe.moveWithZ]
    norm_num
  · intro h
    simp only [noDiagonalDrag, subMovePoses, List.map, List.chain'_cons,
      List.chain'_singleton, and_true] at h
    have := h.1 (by norm_num)
    rw [min_def] at this
    norm_num at this

/-- C10 (confirmed).  While connected: with no `current_z` supplied and a
failed live position read, `move_to_safe` does not raise — it issues exactly
one direct three-axis move to the target and returns `target.z`; and every
completed call, whatever its branch, returns exactly `target.z`. -/
theorem c10_fallback_and_return_z (x y z feedrate : ℚ) :
    move_to_safe true x y z feedrate none none = .ok ([⟨x, y, z, feedrate⟩], z) ∧
    (∀ current_z posRead cmds rz,
      move_to_safe true x y z feedrate current_z posRead = .ok (cmds, rz) → rz = z) := by
  constructor
  · rfl
  · intro current_z posRead cmds rz h
    cases current_z with
    | none =>
      cases posRead with
      | none =>
        simp only [move_to_safe, eq_self_iff_true, not_true, if_false] at h
        exact (congrArg Prod.snd (Except.ok.inj h)).symm
      | some pos =>
        simp only [move_to_safe, move_to_safe.moveWithZ, eq_self_iff_true, not_true, if_false] at h
        split at h <;> [skip; split at h] <;>
          exact (congrArg Prod.snd (Except.ok.inj h)).symm
    | some cz =>
      simp only [move_to_safe, move_to_safe.moveWithZ, eq_self_iff_true, not_true, if_false] at h
      split at h <;> [skip; split at h] <;>
        exact (congrArg Prod.snd (Except.ok.inj h)).symm

/-- Witness for C10 at a concrete input. -/
theorem c10_fallback_and_return_z_witness :
    move_to_safe true 1 2 3 2000 none none = .ok ([⟨1, 2, 3, 2000⟩], 3) :=
  (c10_fallback_and_return_z 1 2 3 2000).1

/-! ## Homing (`Dexarm.send_gcode`, `Dexarm.go_home`, `DexArmController.home`) -/

/-- Errors raised by the `Dexarm` serial layer (dexarm_tests/dexarm.py):
`ConnectionError` when not connected, `TimeoutError` only on a serial *write*
timeout (`serial.SerialTimeoutException`), `RuntimeError` for anything else. -/
inductive DexErr where
  | connectionError
  | writeTimeout
  | runtimeError
  deriving DecidableEq, Repr

/-- The read loop of `send_gcode`: collect the nonempty lines that arrive
inside the timeout window, stopping at the first line equal to `ok`.  If no
`ok` arrives, the loop runs out the window and returns everything it got. -/
def readUntilOk : List String → List String
  | [] => []
  | l :: rest => if l = "ok" then [l] else l :: readUntilOk rest

/-- Embedding of `Dexarm.send_gcode` (dexarm_tests/dexarm.py, lines 54–106).
Time is abstracted: `received` is the sequence of nonempty lines the device
delivers within the `timeout` window, and `writeTimeoutOccurred` models
`serial.SerialTimeoutException` on the write.  Key behaviour: when `wait_ok`
is set and no `ok` line arrives before the window closes, the function
*returns* the partial response ("Return what we got even if no 'ok'") — it
never raises a timeout error for a missing acknowledgement. -/
def send_gcode (connected : Bool) (writeTimeoutOccurred : Bool)
    (received : List String) (command : String) (wait_ok : Bool) :
    Except DexErr String :=
  if ¬ connected then .error .connectionError
  else
    let cmd := command.trim
    if cmd = "" then .ok ""
    else if writeTimeoutOccurred then .error .writeTimeout
    else if wait_ok then .ok (String.intercalate "\n" (readUntilOk received))
    else .ok ""

/-- Embedding of `Dexarm.go_home` (dexarm_tests/dexarm.py, lines 108–129):
send `G28` with `wait_ok=True` and the caller's timeout, then read the
position for a log line (the result is only printed, never acted upon). -/
def go_home (connected : Bool) (writeTimeoutOccurred : Bool)
    (received : List String) (_posRead : Option Pos) : Except DexErr Unit := do
  _ ← send_gcode connected writeTimeoutOccurred received "G28" true
  -- `pos = self.get_position()` feeds only a print; `None` is a warning.
  pure ()

/-- Errors surfaced by `DexArmController.home` (dexarm_controller.py,
lines 108–125): `RuntimeError("DexArm not connected")`, the re-raised
`TimeoutError(... "The arm may be stuck or unpowered.")`, or a propagated
device error. -/
inductive HomeErr where
  | notConnected
  | homingTimeout
  | device (e : DexErr)
  deriving DecidableEq, Repr

/-- Embedding of `DexArmController.home`: requires connection, runs
`go_home`, and converts a `TimeoutError` (= serial write timeout, the only
`TimeoutError` the layer below can raise) into the homing-timeout error with
the "stuck or unpowered" hint. -/
def home (connected : Bool) (writeTimeoutOccurred : Bool)
    (received : List String) (posRead : Option Pos) : Except HomeErr Unit :=
  if ¬ connected then .error .notConnected
  else
    match go_home true writeTimeoutOccurred received posRead with
    | .ok _ => .ok ()
    | .error .writeTimeout => .error .homingTimeout
    | .error e => .error (.device e)

/-- C9 (code bug, evaluation at the failing input).  While connected, if
the homing cycle is never acknowledged within the timeout window (no `ok`
line arrives — indeed whatever lines arrive — and no serial write timeout
occurs), `home` returns success: `send_gcode` returns its partial response
instead of raising, so the homing-timeout error the claim (and the functions'
own docstrings) promise is never signalled. -/
theorem c9_home_swallows_ack_timeout (received : List String) (posRead : Option Pos)
    (_hno : "ok" ∉ received) :
    home true false received posRead = .ok () := by
  have hs : ∃ s, send_gcode true false received "G28" true = Except.ok s := by
    simp only [send_gcode, Bool.not_true, not_false_iff, if_false, if_true,
      eq_self_iff_true, not_true, Bool.false_eq_true, if_neg, ite_false]
    split
    · exact ⟨"", rfl⟩
    · exact ⟨_, rfl⟩
  obtain ⟨s, hsek⟩ := hs
  simp [home, go_home, hsek, bind, Except.bind, pure, Except.pure]

/-- Witness for C9: a device that only sends a busy notice and never `ok`. -/
theorem c9_home_swallows_ack_timeout_witness :
    home true false ["echo:busy: processing"] none = .ok () :=
  c9_home_swallows_ack_timeout ["echo:busy: processing"] none (by simp)

end DexArm

namespace SVGParser

/-! ## `SVGPathParser.convert_to_drawing_commands` (svg_parser.py) -/

/-- A 2-D point in SVG space. -/
structure Pt where
  x : ℚ
  y : ℚ
  deriving DecidableEq, Repr

/-- A parsed `svg.path` segment, as consumed by the generator's
`isinstance` dispatch: `Move`, `Line`, `Close` (handled like `Line`), or a
curved primitive (`CubicBezier`/`QuadraticBezier`/`Arc`), which the generator
only ever queries through its parametric `point(t)` method — modelled here by
the function `f`. -/
inductive Segment where
  | move (e : Pt)
  | line (e : Pt)
  | close (e : Pt)
  | curve (f : ℚ → Pt)

/-- The drawing-area dictionary handed over from
`DexArmController.get_drawing_area`; `z_draw` is optional because the source
guards its use with `if 'z_draw' in drawing_area`. -/
structure Area where
  width : ℚ
  height : ℚ
  x_min : ℚ
  y_min : ℚ
  x_max : ℚ
  y_max : ℚ
  z_draw : Option ℚ
  deriving DecidableEq, Repr

/-- Command kind: `'move'` (pen up) or `'draw'` (pen down). -/
inductive CKind where
  | move
  | draw
  deriving DecidableEq, Repr

/-- One generated drawing command
`{'type': ..., 'x': ..., 'y': ..., 'z': ..., 'feedrate': ...}`. -/
structure DrawCmd where
  kind : CKind
  x : ℚ
  y : ℚ
  z : ℚ
  feedrate : ℚ
  deriving DecidableEq, Repr

/-- Embedding of `SVGPathParser._transform_point` (svg_parser.py,
lines 307–325): scale and offset. -/
def transform_point (scale offset_x offset_y : ℚ) (p : Pt) : ℚ × ℚ :=
  (p.x * scale + offset_x, p.y * scale + offset_y)

/-- Embedding of `SVGPathParser._is_in_bounds` (svg_parser.py,
lines 327–340). -/
def is_in_bounds (area : Area) (x y : ℚ) : Prop :=
  area.x_min ≤ x ∧ x ≤ area.x_max ∧ area.y_min ≤ y ∧ y ≤ area.y_max

instance (area : Area) (x y : ℚ) : Decidable (is_in_bounds area x y) :=
  inferInstanceAs (Decidable (_ ∧ _ ∧ _ ∧ _))

/-- The precomputed constants of one `convert_to_drawing_commands` call:
drawing area, resolved pen heights, feedrates, and the scale/offset of the
SVG-to-machine transform. -/
structure GenCtx where
  area : Area
  zDraw : ℚ
  zUp : ℚ
  fDown : ℚ
  fUp : ℚ
  scale : ℚ
  ox : ℚ
  oy : ℚ
  deriving Repr

/-- Resolution of `svg_width = self.width or 100`: Python's `or` replaces both `None` and
`0.0` by the fallback `100`. -/
def svgDim : Option ℚ → ℚ
  | none => 100
  | some v => if v = 0 then 100 else v

/-- The context set up by `convert_to_drawing_commands` before its main loop
(svg_parser.py, lines 164–193): resolve `z_draw`, compute `z_up_actual`,
`scale = max(scale_x, scale_y)` and the centering offsets. -/
def mkGenCtx (area : Area) (width height : Option ℚ)
    (z_draw z_up pen_down_feedrate pen_up_feedrate : ℚ) : GenCtx :=
  let zd := area.z_draw.getD z_draw
  let svg_width := svgDim width
  let svg_height := svgDim height
  let scale := max (area.width / svg_width) (area.height / svg_height)
  { area := area
    zDraw := zd
    zUp := zd + z_up
    fDown := pen_down_feedrate
    fUp := pen_up_feedrate
    scale := scale
    ox := area.x_min + (area.width - svg_width * scale) / 2
    oy := area.y_min + (area.height - svg_height * scale) / 2 }

/-- The commands one segment contributes, together with the updated
`first_point` flag (svg_parser.py, lines 209–291).  `Move` segments emit an
unclipped pen-up move and clear the flag; `Line`/`Close` endpoints are
bounds-checked and pair a pen-up move with the touchdown draw when the flag
is still set; curves are sampled at the 21 parameter values `i / 20` with no
bounds check. -/
def segCmds (c : GenCtx) (first : Bool) : Segment → List DrawCmd × Bool
  | .move e =>
    let xy := transform_point c.scale c.ox c.oy e
    ([⟨.move, xy.1, xy.2, c.zUp, c.fUp⟩], false)
  | .line e =>
    let xy := transform_point c.scale c.ox c.oy e
    if is_in_bounds c.area xy.1 xy.2 then
      if first then
        ([⟨.move, xy.1, xy.2, c.zUp, c.fUp⟩, ⟨.draw, xy.1, xy.2, c.zDraw, c.fDown⟩], false)
      else
        ([⟨.draw, xy.1, xy.2, c.zDraw, c.fDown⟩], false)
    else ([], first)
  | .close e =>
    let xy := transform_point c.scale c.ox c.oy e
    if is_in_bounds c.area xy.1 xy.2 then
      if first then
        ([⟨.move, xy.1, xy.2, c.zUp, c.fUp⟩, ⟨.draw, xy.1, xy.2, c.zDraw, c.fDown⟩], false)
      else
        ([⟨.draw, xy.1, xy.2, c.zDraw, c.fDown⟩], false)
    else ([], first)
  | .curve f =>
    let sample := fun (i : ℕ) => transform_point c.scale c.ox c.oy (f ((i : ℚ) / 20))
    let tail := (List.range 20).map
      (fun i => (⟨.draw, (sample (i + 1)).1, (sample (i + 1)).2, c.zDraw, c.fDown⟩ : DrawCmd))
    if first then
      (⟨.move, (sample 0).1, (sample 0).2, c.zUp, c.fUp⟩ ::
       ⟨.draw, (sample 0).1, (sample 0).2, c.zDraw, c.fDown⟩ :: tail, false)
    else
      (⟨.draw, (sample 0).1, (sample 0).2, c.zDraw, c.fDown⟩ :: tail, false)

/-- The `for segment in path` loop, threading `first_point`. -/
def segLoop (c : GenCtx) : Bool → List Segment → List DrawCmd
  | _, [] => []
  | first, s :: rest =>
    let r := segCmds c first s
    r.1 ++ segLoop c r.2 rest

/-- Processing of one path given the commands accumulated so far: run the
segment loop with `first_point = True`, then, if the overall command list is
nonempty, append the trailing pen lift at the XY of its *last* command
(svg_parser.py, lines 293–302). -/
def appendPath (c : GenCtx) (cmds : List DrawCmd) (p : List Segment) : List DrawCmd :=
  match (cmds ++ segLoop c true p).getLast? with
  | none => cmds ++ segLoop c true p
  | some last => (cmds ++ segLoop c true p) ++ [⟨.move, last.x, last.y, c.zUp, c.fUp⟩]

/-- The `for path in self.paths` loop (svg_parser.py, lines 196–205 and
258–302): before each path, stop if the accumulated command count has reached
`max_commands`; otherwise process the path and count it.  Returns the
commands and `path_count`. -/
def convLoop (c : GenCtx) (maxCommands : ℕ) :
    List DrawCmd → ℕ → List (List Segment) → List DrawCmd × ℕ
  | cmds, pathCount, [] => (cmds, pathCount)
  | cmds, pathCount, p :: rest =>
    if maxCommands ≤ cmds.length then (cmds, pathCount)
    else convLoop c maxCommands (appendPath c cmds p) (pathCount + 1) rest

/-- Embedding of `SVGPathParser.convert_to_drawing_commands` (svg_parser.py,
lines 144–305).  Returns the generated command list and the number of
processed paths (`path_count`); the skipped-path count the source prints is
`paths.length - path_count`. -/
def convert_to_drawing_commands (paths : List (List Segment))
    (width height : Option ℚ) (area : Area)
    (z_draw z_up pen_down_feedrate pen_up_feedrate : ℚ) (maxCommands : ℕ) :
    List DrawCmd × ℕ :=
  match paths with
  | [] => ([], 0)
  | _ :: _ =>
    convLoop (mkGenCtx area width height z_draw z_up pen_down_feedrate pen_up_feedrate)
      maxCommands [] 0 paths

/-! ### Concrete instances used to settle the generator claims -/

/-- A square drawing area `[0,100] × [0,100]` with `z_draw = 0`. -/
def areaStd : Area := ⟨100, 100, 0, 0, 100, 100, some 0⟩

/-- The generator context arising from `areaStd` with a 100×100 SVG:
identity scale and zero offset. -/
def ctxStd : GenCtx := ⟨areaStd, 0, 16, 8000, 8000, 1, 0, 0⟩

theorem mkGenCtx_std :
    mkGenCtx areaStd (some 100) (some 100) 0 16 8000 8000 = ctxStd := by
  simp only [mkGenCtx, svgDim, areaStd, ctxStd]
  norm_num

/-! ### C3: the command budget -/

/-- C3, counterexample.  A single two-point stroke with `maxCommands = 1`:
the budget is only checked before each path starts, so the one path is
processed in full and the generator returns 4 commands — more than
`maxCommands`.  Generation does not stop in the middle of a path. -/
theorem c3_budget_exceeded :
    ¬ ((convert_to_drawing_commands [[Segment.line ⟨10, 10⟩, Segment.line ⟨20, 20⟩]]
        (some 100) (some 100) areaStd 0 16 8000 8000 1).1.length ≤ 1) := by
  have heval : (convert_to_drawing_commands [[Segment.line ⟨10, 10⟩, Segment.line ⟨20, 20⟩]]
      (some 100) (some 100) areaStd 0 16 8000 8000 1).1 =
      [⟨.move, 10, 10, 16, 8000⟩, ⟨.draw, 10, 10, 0, 8000⟩,
       ⟨.draw, 20, 20, 0, 8000⟩, ⟨.move, 20, 20, 16, 8000⟩] := by
    simp only [convert_to_drawing_commands]
    rw [mkGenCtx_std]
    norm_num [convLoop, appendPath, segLoop, segCmds, transform_point, is_in_bounds,
      ctxStd, areaStd, List.getLast?]
  rw [heval]
  norm_num

/-- The budget behaviour of the path loop, for any starting accumulator:
the final path count stays within `pathCount + paths.length`, and whenever
the loop stopped before consuming every path, the returned command list had
already reached `maxCommands`. -/
theorem convLoop_budget (c : GenCtx) (maxCommands : ℕ) :
    ∀ (paths : List (List Segment)) (cmds : List DrawCmd) (pathCount : ℕ),
      (convLoop c maxCommands cmds pathCount paths).2 ≤ pathCount + paths.length ∧
      ((convLoop c maxCommands cmds pathCount paths).2 < pathCount + paths.length →
        maxCommands ≤ (convLoop c maxCommands cmds pathCount paths).1.length) := by
  intro paths
  induction paths with
  | nil =>
    intro cmds pathCount
    simp [convLoop]
  | cons p rest ih =>
    intro cmds pathCount
    simp only [convLoop]
    by_cases hstop : maxCommands ≤ cmds.length
    · rw [if_pos hstop]
      refine ⟨by simp, fun _ => hstop⟩
    · rw [if_neg hstop]
      have h := ih (appendPath c cmds p) (pathCount + 1)
      refine ⟨h.1.trans (by simp [Nat.add_comm, Nat.add_left_comm]), fun hlt => ?_⟩
      rw [List.length_cons] at hlt
      exact h.2 (by omega)

/-- C3, amended.  The generator checks the budget only between paths: the
processed-path count never exceeds the number of input paths (so the reported
skipped count `total - processed` is non-negative), and if any path was
skipped the accumulated command list had already reached `maxCommands`;
a path in progress is never cut short, so the output may exceed
`maxCommands` by the commands of the last processed path. -/
theorem c3_budget_at_path_granularity (paths : List (List Segment))
    (width height : Option ℚ) (area : Area)
    (z_draw z_up fd fu : ℚ) (maxCommands : ℕ) :
    (convert_to_drawing_commands paths width height area z_draw z_up fd fu maxCommands).2 ≤
      paths.length ∧
    ((convert_to_drawing_commands paths width height area z_draw z_up fd fu maxCommands).2 <
        paths.length →
      maxCommands ≤
        (convert_to_drawing_commands paths width height area z_draw z_up fd fu maxCommands).1.length) := by
  cases paths with
  | nil => simp [convert_to_drawing_commands]
  | cons p rest =>
    have h := convLoop_budget (mkGenCtx area width height z_draw z_up fd fu) maxCommands
      (p :: rest) [] 0
    simpa [convert_to_drawing_commands] using h

/-- Witness for the amended C3: with two one-segment paths and budget `1`,
the second path is skipped (`path_count = 1 < 2`) and the output has indeed
reached the budget. -/
theorem c3_budget_at_path_granularity_witness :
    (convert_to_drawing_commands
        [[Segment.line ⟨10, 10⟩], [Segment.line ⟨20, 20⟩]]
        (some 100) (some 100) areaStd 0 16 8000 8000 1).2 < 2 ∧
    1 ≤ (convert_to_drawing_commands
        [[Segment.line ⟨10, 10⟩], [Segment.line ⟨20, 20⟩]]
        (some 100) (some 100) areaStd 0 16 8000 8000 1).1.length := by
  have hcount : (convert_to_drawing_commands
      [[Segment.line ⟨10, 10⟩], [Segment.line ⟨20, 20⟩]]
      (some 100) (some 100) areaStd 0 16 8000 8000 1).2 < 2 := by
    simp only [convert_to_drawing_commands]
    rw [mkGenCtx_std]
    norm_num [convLoop, appendPath, segLoop, segCmds, transform_point, is_in_bounds,
      ctxStd, areaStd, List.getLast?]
  refine ⟨hcount, ?_⟩
  exact (c3_budget_at_path_granularity
    [[Segment.line ⟨10, 10⟩], [Segment.line ⟨20, 20⟩]]
    (some 100) (some 100) areaStd 0 16 8000 8000 1).2 (by simpa using hcount)

/-! ### C4: the first-point Move/Draw pairing -/

/-- C4, counterexample.  A stroke whose first segment is a `Move` (which
is what `parse_path` produces for the leading `M` of every SVG path string):
the `Move` branch emits a pen-up move at the stroke's first point `(10, 10)`
and clears `first_point`, so no `Draw` at `(10, 10)` is ever emitted — the
pen first touches down at the *second* point `(20, 20)`, not at the stroke's
own in-bounds start as the claim requires. -/
theorem c4_leading_move_breaks_pairing :
    (convert_to_drawing_commands [[Segment.move ⟨10, 10⟩, Segment.line ⟨20, 20⟩]]
        (some 100) (some 100) areaStd 0 16 8000 8000 5000).1 =
      [⟨.move, 10, 10, 16, 8000⟩, ⟨.draw, 20, 20, 0, 8000⟩, ⟨.move, 20, 20, 16, 8000⟩] ∧
    is_in_bounds areaStd 10 10 ∧
    ∀ cmd ∈ [(⟨.move, 10, 10, 16, 8000⟩ : DrawCmd), ⟨.draw, 20, 20, 0, 8000⟩,
        ⟨.move, 20, 20, 16, 8000⟩],
      ¬ (cmd.kind = CKind.draw ∧ cmd.x = 10 ∧ cmd.y = 10) := by
  refine ⟨?_, ?_, ?_⟩
  · simp only [convert_to_drawing_commands]
    rw [mkGenCtx_std]
    norm_num [convLoop, appendPath, segLoop, segCmds, transform_point, is_in_bounds,
      ctxStd, areaStd, List.getLast?]
  · norm_num [is_in_bounds, areaStd]
  · intro cmd hm
    simp only [List.mem_cons, List.not_mem_nil, or_false] at hm
    rcases hm with h | h | h <;> subst h
    · rintro ⟨hk, -, -⟩; exact CKind.noConfusion hk
    · rintro ⟨-, hx, -⟩; norm_num at hx
    · rintro ⟨hk, -, -⟩; exact CKind.noConfusion hk

/-- The endpoint of a `Line`/`Close` segment; `none` for `Move` and curves. -/
def lineLikeEnd : Segment → Option Pt
  | .line e => some e
  | .close e => some e
  | _ => none

/-- A stroke made only of straight `Line`/`Close` segments — no leading
`Move` segment and no curves. -/
def onlyLines (segs : List Segment) : Prop :=
  ∀ s ∈ segs, (lineLikeEnd s).isSome

/-- The transformed coordinates of the first point of the stroke that lies
inside the drawing area, for a straight-segment stroke. -/
def firstInBounds (c : GenCtx) : List Segment → Option (ℚ × ℚ)
  | [] => none
  | s :: rest =>
    match lineLikeEnd s with
    | some e =>
      let xy := transform_point c.scale c.ox c.oy e
      if is_in_bounds c.area xy.1 xy.2 then some xy else firstInBounds c rest
    | none => firstInBounds c rest

theorem segLoop_cons (c : GenCtx) (first : Bool) (s : Segment) (rest : List Segment) :
    segLoop c first (s :: rest) =
      (segCmds c first s).1 ++ segLoop c (segCmds c first s).2 rest := rfl

theorem segCmds_line_true_in (c : GenCtx) (e : Pt)
    (hb : is_in_bounds c.area
      (transform_point c.scale c.ox c.oy e).1 (transform_point c.scale c.ox c.oy e).2) :
    segCmds c true (.line e) =
      ([⟨.move, (transform_point c.scale c.ox c.oy e).1,
          (transform_point c.scale c.ox c.oy e).2, c.zUp, c.fUp⟩,
        ⟨.draw, (transform_point c.scale c.ox c.oy e).1,
          (transform_point c.scale c.ox c.oy e).2, c.zDraw, c.fDown⟩], false) := by
  simp [segCmds, hb]

theorem segCmds_line_false_in (c : GenCtx) (e : Pt)
    (hb : is_in_bounds c.area
      (transform_point c.scale c.ox c.oy e).1 (transform_point c.scale c.ox c.oy e).2) :
    segCmds c false (.line e) =
      ([⟨.draw, (transform_point c.scale c.ox c.oy e).1,
          (transform_point c.scale c.ox c.oy e).2, c.zDraw, c.fDown⟩], false) := by
  simp [segCmds, hb]

theorem segCmds_line_out (c : GenCtx) (first : Bool) (e : Pt)
    (hb : ¬ is_in_bounds c.area
      (transform_point c.scale c.ox c.oy e).1 (transform_point c.scale c.ox c.oy e).2) :
    segCmds c first (.line e) = ([], first) := by
  simp [segCmds, hb]

theorem segCmds_close_true_in (c : GenCtx) (e : Pt)
    (hb : is_in_bounds c.area
      (transform_point c.scale c.ox c.oy e).1 (transform_point c.scale c.ox c.oy e).2) :
    segCmds c true (.close e) =
      ([⟨.move, (transform_point c.scale c.ox c.oy e).1,
          (transform_point c.scale c.ox c.oy e).2, c.zUp, c.fUp⟩,
        ⟨.draw, (transform_point c.scale c.ox c.oy e).1,
          (transform_point c.scale c.ox c.oy e).2, c.zDraw, c.fDown⟩], false) := by
  simp [segCmds, hb]

theorem segCmds_close_false_in (c : GenCtx) (e : Pt)
    (hb : is_in_bounds c.area
      (transform_point c.scale c.ox c.oy e).1 (transform_point c.scale c.ox c.oy e).2) :
    segCmds c false (.close e) =
      ([⟨.draw, (transform_point c.scale c.ox c.oy e).1,
          (transform_point c.scale c.ox c.oy e).2, c.zDraw, c.fDown⟩], false) := by
  simp [segCmds, hb]

theorem segCmds_close_out (c : GenCtx) (first : Bool) (e : Pt)
    (hb : ¬ is_in_bounds c.area
      (transform_point c.scale c.ox c.oy e).1 (transform_point c.scale c.ox c.oy e).2) :
    segCmds c first (.close e) = ([], first) := by
  simp [segCmds, hb]

/-- Once `first_point` is cleared, a straight-segment stroke contributes only
pen-down draws at `zDraw`, all at in-bounds points. -/
theorem segLoop_false_only_draws (c : GenCtx) :
    ∀ segs : List Segment, onlyLines segs →
      ∀ d ∈ segLoop c false segs,
        d.kind = CKind.draw ∧ d.z = c.zDraw ∧ is_in_bounds c.area d.x d.y := by
  intro segs
  induction segs with
  | nil => intro _ d hd; simp [segLoop] at hd
  | cons s rest ih =>
    intro honly d hd
    have hs : (lineLikeEnd s).isSome := honly s (List.mem_cons_self s rest)
    have hrest : onlyLines rest := fun t ht => honly t (List.mem_cons_of_mem s ht)
    cases s with
    | move e => simp [lineLikeEnd] at hs
    | curve f => simp [lineLikeEnd] at hs
    | line e =>
      rw [segLoop_cons] at hd
      by_cases hb : is_in_bounds c.area
          (transform_point c.scale c.ox c.oy e).1 (transform_point c.scale c.ox c.oy e).2
      · rw [segCmds_line_false_in c e hb] at hd
        simp only [List.cons_append, List.nil_append, List.mem_cons] at hd
        rcases hd with h | h
        · subst h; exact ⟨rfl, rfl, hb⟩
        · exact ih hrest d h
      · rw [segCmds_line_out c false e hb] at hd
        simp only [List.nil_append] at hd
        exact ih hrest d hd
    | close e =>
      rw [segLoop_cons] at hd
      by_cases hb : is_in_bounds c.area
          (transform_point c.scale c.ox c.oy e).1 (transform_point c.scale c.ox c.oy e).2
      · rw [segCmds_close_false_in c e hb] at hd
        simp only [List.cons_append, List.nil_append, List.mem_cons] at hd
        rcases hd with h | h
        · subst h; exact ⟨rfl, rfl, hb⟩
        · exact ih hrest d h
      · rw [segCmds_close_out c false e hb] at hd
        simp only [List.nil_append] at hd
        exact ih hrest d hd

/-- C4, amended.  The Move-then-Draw pairing holds for strokes without
`Move` segments or curves: for a stroke of straight segments whose first
in-bounds point is `(x, y)`, the emitted commands start with a pen-up `Move`
at `(x, y, zUp)` immediately followed by a `Draw` at `(x, y, zDraw)`, and
every later command is a `Draw` at `zDraw` at an in-bounds point.  (A stroke
beginning with a `Move` segment instead emits an unclipped pen-up move and
first touches down at its second point, as the counterexample shows.) -/
theorem c4_pairing_for_straight_strokes (c : GenCtx) (segs : List Segment)
    (honly : onlyLines segs) (x y : ℚ)
    (hfirst : firstInBounds c segs = some (x, y)) :
    ∃ rest, segLoop c true segs =
        ⟨.move, x, y, c.zUp, c.fUp⟩ :: ⟨.draw, x, y, c.zDraw, c.fDown⟩ :: rest ∧
      ∀ d ∈ rest, d.kind = CKind.draw ∧ d.z = c.zDraw ∧ is_in_bounds c.area d.x d.y := by
  induction segs with
  | nil => simp [firstInBounds] at hfirst
  | cons s rest ih =>
    have hs : (lineLikeEnd s).isSome := honly s (List.mem_cons_self s rest)
    have hrest : onlyLines rest := fun t ht => honly t (List.mem_cons_of_mem s ht)
    cases s with
    | move e => simp [lineLikeEnd] at hs
    | curve f => simp [lineLikeEnd] at hs
    | line e =>
      by_cases hb : is_in_bounds c.area
          (transform_point c.scale c.ox c.oy e).1 (transform_point c.scale c.ox c.oy e).2
      · have hxy : transform_point c.scale c.ox c.oy e = (x, y) := by
          simp only [firstInBounds, lineLikeEnd] at hfirst
          rw [if_pos hb] at hfirst
          exact Option.some.inj hfirst
        refine ⟨segLoop c false rest, ?_, segLoop_false_only_draws c rest hrest⟩
        rw [segLoop_cons, segCmds_line_true_in c e hb, hxy]
        simp
      · have hfirst' : firstInBounds c rest = some (x, y) := by
          simp only [firstInBounds, lineLikeEnd] at hfirst
          rwa [if_neg hb] at hfirst
        obtain ⟨tail, htail, hdraws⟩ := ih hrest hfirst'
        refine ⟨tail, ?_, hdraws⟩
        rw [segLoop_cons, segCmds_line_out c true e hb]
        simpa using htail
    | close e =>
      by_cases hb : is_in_bounds c.area
          (transform_point c.scale c.ox c.oy e).1 (transform_point c.scale c.ox c.oy e).2
      · have hxy : transform_point c.scale c.ox c.oy e = (x, y) := by
          simp only [firstInBounds, lineLikeEnd] at hfirst
          rw [if_pos hb] at hfirst
          exact Option.some.inj hfirst
        refine ⟨segLoop c false rest, ?_, segLoop_false_only_draws c rest hrest⟩
        rw [segLoop_cons, segCmds_close_true_in c e hb, hxy]
        simp
      · have hfirst' : firstInBounds c rest = some (x, y) := by
          simp only [firstInBounds, lineLikeEnd] at hfirst
          rwa [if_neg hb] at hfirst
        obtain ⟨tail, htail, hdraws⟩ := ih hrest hfirst'
        refine ⟨tail, ?_, hdraws⟩
        rw [segLoop_cons, segCmds_close_out c true e hb]
        simpa using htail

/-- Witness for the amended C4 at a concrete straight two-point stroke. -/
theorem c4_pairing_for_straight_strokes_witness :
    ∃ rest, segLoop ctxStd true [Segment.line ⟨10, 10⟩, Segment.line ⟨20, 20⟩] =
        ⟨.move, 10, 10, ctxStd.zUp, ctxStd.fUp⟩ ::
        ⟨.draw, 10, 10, ctxStd.zDraw, ctxStd.fDown⟩ :: rest ∧
      ∀ d ∈ rest, d.kind = CKind.draw ∧ d.z = ctxStd.zDraw ∧
        is_in_bounds ctxStd.area d.x d.y := by
  refine c4_pairing_for_straight_strokes ctxStd _ ?_ 10 10 ?_
  · intro s hs
    simp only [List.mem_cons, List.not_mem_nil, or_false] at hs
    rcases hs with h | h <;> subst h <;> simp [lineLikeEnd]
  · norm_num [firstInBounds, lineLikeEnd, transform_point, is_in_bounds, ctxStd, areaStd]

/-! ### C5: the clipping policy -/

theorem mem_appendPath_of_mem (c : GenCtx) (cmds : List DrawCmd) (p : List Segment)
    (d : DrawCmd) (h : d ∈ cmds ++ segLoop c true p) : d ∈ appendPath c cmds p := by
  unfold appendPath
  split
  · exact h
  · exact List.mem_append_left _ h

/-- C5, counterexample.  A curve whose samples all map to `(200, 200)`,
outside the `[0,100] × [0,100]` drawing area: the curve-sampling branch has no
bounds check, so the generator emits `Draw` commands outside the area. -/
theorem c5_curve_draw_out_of_bounds :
    ∃ d ∈ (convert_to_drawing_commands [[Segment.curve (fun _ => ⟨200, 200⟩)]]
        (some 100) (some 100) areaStd 0 16 8000 8000 5000).1,
      d.kind = CKind.draw ∧ ¬ is_in_bounds areaStd d.x d.y := by
  have hconv : (convert_to_drawing_commands [[Segment.curve (fun _ => ⟨200, 200⟩)]]
      (some 100) (some 100) areaStd 0 16 8000 8000 5000).1 =
      appendPath ctxStd [] [Segment.curve (fun _ => ⟨200, 200⟩)] := by
    simp only [convert_to_drawing_commands]
    rw [mkGenCtx_std]
    norm_num [convLoop]
  have hseg : segLoop ctxStd true [Segment.curve (fun _ => ⟨200, 200⟩)] =
      ⟨.move, 200, 200, 16, 8000⟩ :: ⟨.draw, 200, 200, 0, 8000⟩ ::
        (List.range 20).map (fun _ => (⟨.draw, 200, 200, 0, 8000⟩ : DrawCmd)) := by
    norm_num [segLoop, segCmds, transform_point, ctxStd]
  rw [hconv]
  refine ⟨⟨.draw, 200, 200, 0, 8000⟩, mem_appendPath_of_mem _ _ _ _ ?_, rfl, ?_⟩
  · rw [List.nil_append, hseg]
    simp
  · norm_num [is_in_bounds, areaStd]

/-- Every command a straight-segment stroke contributes lies inside the
drawing area: `Line`/`Close` endpoints are bounds-checked and out-of-bounds
points are dropped without emitting anything. -/
theorem segLoop_bounds (c : GenCtx) :
    ∀ (segs : List Segment), onlyLines segs → ∀ (first : Bool),
      ∀ d ∈ segLoop c first segs, is_in_bounds c.area d.x d.y := by
  intro segs
  induction segs with
  | nil => intro _ first d hd; simp [segLoop] at hd
  | cons s rest ih =>
    intro honly first d hd
    have hs : (lineLikeEnd s).isSome := honly s (List.mem_cons_self s rest)
    have hrest : onlyLines rest := fun t ht => honly t (List.mem_cons_of_mem s ht)
    cases s with
    | move e => simp [lineLikeEnd] at hs
    | curve f => simp [lineLikeEnd] at hs
    | line e =>
      rw [segLoop_cons] at hd
      by_cases hb : is_in_bounds c.area
          (transform_point c.scale c.ox c.oy e).1 (transform_point c.scale c.ox c.oy e).2
      · cases first with
        | true =>
          rw [segCmds_line_true_in c e hb] at hd
          simp only [List.cons_append, List.nil_append, List.mem_cons] at hd
          rcases hd with h | h | h
          · subst h; exact hb
          · subst h; exact hb
          · exact ih hrest false d h
        | false =>
          rw [segCmds_line_false_in c e hb] at hd
          simp only [List.cons_append, List.nil_append, List.mem_cons] at hd
          rcases hd with h | h
          · subst h; exact hb
          · exact ih hrest false d h
      · rw [segCmds_line_out c first e hb] at hd
        simp only [List.nil_append] at hd
        exact ih hrest first d hd
    | close e =>
      rw [segLoop_cons] at hd
      by_cases hb : is_in_bounds c.area
          (transform_point c.scale c.ox c.oy e).1 (transform_point c.scale c.ox c.oy e).2
      · cases first with
        | true =>
          rw [segCmds_close_true_in c e hb] at hd
          simp only [List.cons_append, List.nil_append, List.mem_cons] at hd
          rcases hd with h | h | h
          · subst h; exact hb
          · subst h; exact hb
          · exact ih hrest false d h
        | false =>
          rw [segCmds_close_false_in c e hb] at hd
          simp only [List.cons_append, List.nil_append, List.mem_cons] at hd
          rcases hd with h | h
          · subst h; exact hb
          · exact ih hrest false d h
      · rw [segCmds_close_out c first e hb] at hd
        simp only [List.nil_append] at hd
        exact ih hrest first d hd

/-- Processing one straight-segment path preserves "all commands in bounds":
the trailing pen lift copies the XY of the (in-bounds) last command. -/
theorem appendPath_bounds (c : GenCtx) (cmds : List DrawCmd) (p : List Segment)
    (hc : ∀ d ∈ cmds, is_in_bounds c.area d.x d.y) (hp : onlyLines p) :
    ∀ d ∈ appendPath c cmds p, is_in_bounds c.area d.x d.y := by
  have hall : ∀ d ∈ cmds ++ segLoop c true p, is_in_bounds c.area d.x d.y := by
    intro d hd
    rcases List.mem_append.mp hd with h | h
    · exact hc d h
    · exact segLoop_bounds c p hp true d h
  intro d hd
  unfold appendPath at hd
  split at hd
  · exact hall d hd
  · next last hlast =>
    rcases List.mem_append.mp hd with h | h
    · exact hall d h
    · have hmem : last ∈ cmds ++ segLoop c true p := by
        obtain ⟨hne, heq⟩ := List.mem_getLast?_eq_getLast (by rw [hlast]; rfl)
        exact heq ▸ List.getLast_mem hne
      have := hall last hmem
      simp only [List.mem_singleton] at h
      subst h
      exact this

theorem convLoop_bounds (c : GenCtx) (maxCommands : ℕ) :
    ∀ (paths : List (List Segment)) (cmds : List DrawCmd) (pathCount : ℕ),
      (∀ d ∈ cmds, is_in_bounds c.area d.x d.y) →
      (∀ p ∈ paths, onlyLines p) →
      ∀ d ∈ (convLoop c maxCommands cmds pathCount paths).1,
        is_in_bounds c.area d.x d.y := by
  intro paths
  induction paths with
  | nil =>
    intro cmds pathCount hc _ d hd
    simp only [convLoop] at hd
    exact hc d hd
  | cons p rest ih =>
    intro cmds pathCount hc hp d hd
    simp only [convLoop] at hd
    by_cases hstop : maxCommands ≤ cmds.length
    · rw [if_pos hstop] at hd
      exact hc d hd
    · rw [if_neg hstop] at hd
      exact ih (appendPath c cmds p) (pathCount + 1)
        (appendPath_bounds c cmds p hc (hp p (List.mem_cons_self p rest)))
        (fun q hq => hp q (List.mem_cons_of_mem p hq)) d hd

/-- C5, amended.  Clipping applies only to `Line`/`Close` endpoints: for
inputs made of straight segments, every point falling outside the drawing
area is dropped (no command emitted, no clamping) and every generated command
— in particular every `Draw` — has XY inside the area.  `Draw` commands
produced by sampling curved segments (and the pen-up moves of `Move`
segments) are *not* bounds-checked and can fall outside the area, as the
counterexample shows. -/
theorem c5_straight_strokes_clipped (paths : List (List Segment))
    (width height : Option ℚ) (area : Area)
    (z_draw z_up fd fu : ℚ) (maxCommands : ℕ)
    (hp : ∀ p ∈ paths, onlyLines p) :
    ∀ d ∈ (convert_to_drawing_commands paths width height area
        z_draw z_up fd fu maxCommands).1,
      is_in_bounds area d.x d.y := by
  cases paths with
  | nil => intro d hd; simp [convert_to_drawing_commands] at hd
  | cons p rest =>
    intro d hd
    have h := convLoop_bounds (mkGenCtx area width height z_draw z_up fd fu)
      maxCommands (p :: rest) [] 0 (by intro d hd; simp at hd) hp d
    exact h (by simpa [convert_to_drawing_commands] using hd)

/-- Witness for the amended C5: in the single-stroke run over `areaStd`, the
generated commands sit inside the area — extracted at the touchdown command. -/
theorem c5_straight_strokes_clipped_witness :
    is_in_bounds areaStd 10 10 := by
  have heval : (convert_to_drawing_commands [[Segment.line ⟨10, 10⟩]]
      (some 100) (some 100) areaStd 0 16 8000 8000 5000).1 =
      [⟨.move, 10, 10, 16, 8000⟩, ⟨.draw, 10, 10, 0, 8000⟩, ⟨.move, 10, 10, 16, 8000⟩] := by
    simp only [convert_to_drawing_commands]
    rw [mkGenCtx_std]
    norm_num [convLoop, appendPath, segLoop, segCmds, transform_point, is_in_bounds,
      ctxStd, areaStd, List.getLast?]
  have h := c5_straight_strokes_clipped [[Segment.line ⟨10, 10⟩]]
    (some 100) (some 100) areaStd 0 16 8000 8000 5000
    (by intro p hp'; simp only [List.mem_singleton] at hp'; subst hp'
        intro s hs; simp only [List.mem_singleton] at hs; subst hs; simp [lineLikeEnd])
    ⟨.draw, 10, 10, 0, 8000⟩ (by rw [heval]; simp)
  exact h

/-! ### C8: extreme points land exactly on the boundary -/

/-- C8 (confirmed).  For a source spanning the full `w × h` box, the
transform built by `convert_to_drawing_commands` (scale
`max(area.width / w, area.height / h)` plus centering offset) maps the
extreme coordinates exactly onto the drawing area's boundary along the
dimension whose scale factor is the maximum: when the X factor dominates,
`x = 0` lands on `x_min` and `x = w` on `x_max` (any y), and symmetrically
for the Y factor. -/
theorem c8_extremes_on_boundary (area : Area) (w h z_draw z_up fd fu x0 y0 : ℚ)
    (hw : 0 < w) (hh : 0 < h)
    (hwidth : area.width = area.x_max - area.x_min)
    (hheight : area.height = area.y_max - area.y_min) :
    (area.height / h ≤ area.width / w →
      (transform_point (mkGenCtx area (some w) (some h) z_draw z_up fd fu).scale
          (mkGenCtx area (some w) (some h) z_draw z_up fd fu).ox
          (mkGenCtx area (some w) (some h) z_draw z_up fd fu).oy ⟨0, y0⟩).1 = area.x_min ∧
      (transform_point (mkGenCtx area (some w) (some h) z_draw z_up fd fu).scale
          (mkGenCtx area (some w) (some h) z_draw z_up fd fu).ox
          (mkGenCtx area (some w) (some h) z_draw z_up fd fu).oy ⟨w, y0⟩).1 = area.x_max) ∧
    (area.width / w ≤ area.height / h →
      (transform_point (mkGenCtx area (some w) (some h) z_draw z_up fd fu).scale
          (mkGenCtx area (some w) (some h) z_draw z_up fd fu).ox
          (mkGenCtx area (some w) (some h) z_draw z_up fd fu).oy ⟨x0, 0⟩).2 = area.y_min ∧
      (transform_point (mkGenCtx area (some w) (some h) z_draw z_up fd fu).scale
          (mkGenCtx area (some w) (some h) z_draw z_up fd fu).ox
          (mkGenCtx area (some w) (some h) z_draw z_up fd fu).oy ⟨x0, h⟩).2 = area.y_max) := by
  have hwne : w ≠ 0 := ne_of_gt hw
  have hhne : h ≠ 0 := ne_of_gt hh
  have hsw : svgDim (some w) = w := by simp [svgDim, hwne]
  have hsh : svgDim (some h) = h := by simp [svgDim, hhne]
  constructor
  · intro hle
    have hscale : (mkGenCtx area (some w) (some h) z_draw z_up fd fu).scale =
        area.width / w := by
      simp [mkGenCtx, hsw, hsh, max_eq_left hle]
    have hox : (mkGenCtx area (some w) (some h) z_draw z_up fd fu).ox = area.x_min := by
      simp only [mkGenCtx, hsw, hsh, max_eq_left hle]
      rw [mul_div_cancel₀ _ hwne]
      ring
    constructor
    · simp [transform_point, hscale, hox]
    · simp only [transform_point, hscale, hox]
      rw [mul_div_cancel₀ _ hwne, hwidth]
      ring
  · intro hle
    have hscale : (mkGenCtx area (some w) (some h) z_draw z_up fd fu).scale =
        area.height / h := by
      simp [mkGenCtx, hsw, hsh, max_eq_right hle]
    have hoy : (mkGenCtx area (some w) (some h) z_draw z_up fd fu).oy = area.y_min := by
      simp only [mkGenCtx, hsw, hsh, max_eq_right hle]
      rw [mul_div_cancel₀ _ hhne]
      ring
    constructor
    · simp [transform_point, hscale, hoy]
    · simp only [transform_point, hscale, hoy]
      rw [mul_div_cancel₀ _ hhne, hheight]
      ring

/-- A wide drawing area whose X scale factor dominates, for the C8 witness. -/
def areaWide : Area := ⟨100, 50, 0, 0, 100, 50, none⟩

/-- Witness for C8: a 10×10 source into `areaWide` — the X factor (10)
dominates the Y factor (5), and `x = 0` / `x = 10` land exactly on
`x_min = 0` / `x_max = 100`. -/
theorem c8_extremes_on_boundary_witness :
    (transform_point (mkGenCtx areaWide (some 10) (some 10) 0 16 8000 8000).scale
        (mkGenCtx areaWide (some 10) (some 10) 0 16 8000 8000).ox
        (mkGenCtx areaWide (some 10) (some 10) 0 16 8000 8000).oy ⟨0, 3⟩).1 = 0 ∧
    (transform_point (mkGenCtx areaWide (some 10) (some 10) 0 16 8000 8000).scale
        (mkGenCtx areaWide (some 10) (some 10) 0 16 8000 8000).ox
        (mkGenCtx areaWide (some 10) (some 10) 0 16 8000 8000).oy ⟨10, 3⟩).1 = 100 := by
  have h := (c8_extremes_on_boundary areaWide 10 10 0 16 8000 8000 0 3
    (by norm_num) (by norm_num)
    (by norm_num [areaWide]) (by norm_num [areaWide])).1
    (by norm_num [areaWide])
  simpa [areaWide] using h

end SVGParser

namespace PathOptimizer

/-!
## `_optimize_path_order` (svg_plotter_methods.py, lines 290–336; the
identical implementation appears in svg_clean_centerline.py, lines 296–335)

Points are real pairs; `_point_distance` is `np.sqrt` of the sum of squared
coordinate differences, modelled by `Real.sqrt`.  Python's `float('inf')`
initial `min_dist` is modelled by `⊤ : WithTop ℝ`.
-/

open scoped Classical

/-- A 2-D point. -/
abbrev RPt : Type := ℝ × ℝ

/-- A polyline: an ordered list of points. -/
abbrev Poly : Type := List RPt

/-- Dummy point for `poly[0]` / `poly[-1]`; never reached on the nonempty
polylines the source operates on. -/
def originPt : RPt := (0, 0)

/-- Embedding of `_point_distance` (svg_plotter_methods.py, lines 429–431 in
the helper block): `np.sqrt((p1[0]-p2[0])**2 + (p1[1]-p2[1])**2)`. -/
noncomputable def point_distance (p q : RPt) : ℝ :=
  Real.sqrt ((p.1 - q.1) ^ 2 + (p.2 - q.2) ^ 2)

/-- The `dist_start` comparison of the scan body: distance from
`current_end` to `poly[0]`; a strict improvement selects `(idx, forward)`. -/
noncomputable def stepStart (ce : RPt) (idx : ℕ) (poly : Poly)
    (st : WithTop ℝ × ℕ × Bool) : WithTop ℝ × ℕ × Bool :=
  if (point_distance ce (poly.headD originPt) : WithTop ℝ) < st.1 then
    ((point_distance ce (poly.headD originPt) : WithTop ℝ), idx, false)
  else st

/-- The `dist_end` comparison of the scan body: distance from `current_end`
to `poly[-1]`; a strict improvement selects `(idx, reversed)`. -/
noncomputable def stepEnd (ce : RPt) (idx : ℕ) (poly : Poly)
    (st : WithTop ℝ × ℕ × Bool) : WithTop ℝ × ℕ × Bool :=
  if (point_distance ce (poly.getLastD originPt) : WithTop ℝ) < st.1 then
    ((point_distance ce (poly.getLastD originPt) : WithTop ℝ), idx, true)
  else st

/-- One iteration of the `for idx, poly in enumerate(remaining)` scan:
both comparisons in order — ties keep the earlier stroke and the forward
orientation, since only strict improvements update the state. -/
noncomputable def bestStep (ce : RPt) (idx : ℕ) (poly : Poly)
    (st : WithTop ℝ × ℕ × Bool) : WithTop ℝ × ℕ × Bool :=
  stepEnd ce idx poly (stepStart ce idx poly st)

/-- The enumeration scan itself, carrying the running index. -/
noncomputable def selectLoop (ce : RPt) : ℕ → WithTop ℝ × ℕ × Bool → List Poly →
    WithTop ℝ × ℕ × Bool
  | _, st, [] => st
  | idx, st, poly :: rest => selectLoop ce (idx + 1) (bestStep ce idx poly st) rest

/-- The scan over `remaining` with `min_dist = float('inf')`, `best_idx = 0`,
`best_reverse = False`, returning `(best_idx, best_reverse)`. -/
noncomputable def selectBest (ce : RPt) (remaining : List Poly) : ℕ × Bool :=
  (selectLoop ce 0 (⊤, 0, false) remaining).2

theorem selectLoop_idx_lt (ce : RPt) (bound : ℕ) :
    ∀ (rest : List Poly) (idx : ℕ) (st : WithTop ℝ × ℕ × Bool),
      st.2.1 < bound → idx + rest.length ≤ bound →
      (selectLoop ce idx st rest).2.1 < bound := by
  intro rest
  induction rest with
  | nil => intro idx st hst _; exact hst
  | cons poly r ih =>
    intro idx st hst hlen
    rw [List.length_cons] at hlen
    have hidx : idx < bound := by omega
    have hstep : (bestStep ce idx poly st).2.1 < bound := by
      unfold bestStep stepEnd stepStart
      split
      · split
        · exact hidx
        · exact hidx
      · split
        · exact hidx
        · exact hst
    exact ih (idx + 1) (bestStep ce idx poly st) hstep (by omega)

theorem selectBest_lt (ce : RPt) (r : List Poly) (h : r ≠ []) :
    (selectBest ce r).1 < r.length := by
  have hr : 0 < r.length := List.length_pos.mpr h
  exact selectLoop_idx_lt ce r.length r 0 (⊤, 0, false) hr (by omega)

/-- The `while remaining:` loop: pop the nearest stroke (reversing it when
its end point won), append it, and continue from its new end point. -/
noncomputable def greedyLoop (ce : RPt) (remaining : List Poly) : List Poly :=
  match remaining with
  | [] => []
  | p :: rest =>
    let sel := selectBest ce (p :: rest)
    let chosen := (p :: rest).getD sel.1 []
    let np := if sel.2 then chosen.reverse else chosen
    np :: greedyLoop (np.getLastD originPt) ((p :: rest).eraseIdx sel.1)
termination_by remaining.length
decreasing_by
  have hlt : (selectBest ce (p :: rest)).1 < (p :: rest).length :=
    selectBest_lt ce (p :: rest) (List.cons_ne_nil p rest)
  have := List.length_eraseIdx_add_one hlt
  omega

/-- Embedding of `_optimize_path_order`: empty input gives an empty output;
otherwise the first polyline seeds the order in its original orientation and
the greedy loop consumes the rest. -/
noncomputable def optimize_path_order (polylines : List Poly) : List Poly :=
  match polylines with
  | [] => []
  | first :: rest => first :: greedyLoop (first.getLastD originPt) rest

/-- The total pen-up travel of an ordering: the sum over consecutive
polylines of the distance from one polyline's end to the next one's start. -/
noncomputable def travel_distance : List Poly → ℝ
  | a :: b :: rest =>
    point_distance (a.getLastD originPt) (b.headD originPt) + travel_distance (b :: rest)
  | _ => 0

/-! ### C6: the greedy order is a permutation with per-element reversal -/

/-- The unordered pair of a polyline and its reversal — invariant under
reversal, so two polylines have equal orbits exactly when one is the other
or its reverse. -/
def orbitPair (p : Poly) : Multiset Poly := {p, p.reverse}

theorem orbitPair_reverse (p : Poly) : orbitPair p.reverse = orbitPair p := by
  simp only [orbitPair, List.reverse_reverse]
  exact Multiset.pair_comm _ _

theorem perm_getD_cons_eraseIdx (l : List Poly) (i : ℕ) (h : i < l.length) :
    List.Perm l (l.getD i [] :: l.eraseIdx i) := by
  induction l generalizing i with
  | nil => simp at h
  | cons a t ih =>
    cases i with
    | zero => simp [List.getD]
    | succ i =>
      rw [List.length_cons] at h
      have hi : i < t.length := by omega
      simp only [List.getD_cons_succ, List.eraseIdx_cons_succ]
      exact (List.Perm.cons a (ih i hi)).trans (List.Perm.swap _ _ _)

theorem greedyLoop_perm_aux (n : ℕ) :
    ∀ (ce : RPt) (r : List Poly), r.length = n →
      List.Perm ((greedyLoop ce r).map orbitPair) (r.map orbitPair) := by
  induction n using Nat.strong_induction_on with
  | _ n ih =>
    intro ce r hlen
    cases r with
    | nil => simp [greedyLoop]
    | cons p rest =>
      have hlt : (selectBest ce (p :: rest)).1 < (p :: rest).length :=
        selectBest_lt ce (p :: rest) (List.cons_ne_nil p rest)
      have herase : ((p :: rest).eraseIdx (selectBest ce (p :: rest)).1).length + 1 =
          (p :: rest).length := List.length_eraseIdx_add_one hlt
      have hlenlt : ((p :: rest).eraseIdx (selectBest ce (p :: rest)).1).length < n := by
        rw [hlen] at herase
        omega
      simp only [greedyLoop]
      set sel := selectBest ce (p :: rest) with hsel
      set chosen := (p :: rest).getD sel.1 [] with hchosen
      set np := if sel.2 then chosen.reverse else chosen with hnp
      have horb : orbitPair np = orbitPair chosen := by
        rw [hnp]
        cases sel.2 with
        | true => rw [if_pos rfl]; exact orbitPair_reverse chosen
        | false => rw [if_neg (by simp)]
      have hrec := ih _ hlenlt (np.getLastD originPt) ((p :: rest).eraseIdx sel.1) rfl
      refine List.Perm.trans ?_
        (List.Perm.map orbitPair (perm_getD_cons_eraseIdx (p :: rest) sel.1 hlt).symm)
      rw [List.map_cons, List.map_cons, horb]
      exact List.Perm.cons _ hrec

/-- C6 (confirmed).  For every input list of polylines, the greedy
optimizer returns a list of the same length whose multiset of
reversal-orbits equals the input's: every input polyline appears exactly
once, either as itself or reversed, and nothing else appears. -/
theorem c6_order_is_permutation_with_reversal (polylines : List Poly) :
    (optimize_path_order polylines).length = polylines.length ∧
    List.Perm ((optimize_path_order polylines).map orbitPair)
      (polylines.map orbitPair) := by
  have hperm : List.Perm ((optimize_path_order polylines).map orbitPair)
      (polylines.map orbitPair) := by
    cases polylines with
    | nil => simp [optimize_path_order]
    | cons first rest =>
      simp only [optimize_path_order, List.map_cons]
      exact List.Perm.cons _ (greedyLoop_perm_aux rest.length _ rest rfl)
  refine ⟨?_, hperm⟩
  have hlen := hperm.length_eq
  simpa using hlen

/-! ### C7: greedy travel distance -/

theorem stepStart_le (ce : RPt) (idx : ℕ) (poly : Poly) (st : WithTop ℝ × ℕ × Bool) :
    (stepStart ce idx poly st).1 ≤ st.1 ∧
    (stepStart ce idx poly st).1 ≤ (point_distance ce (poly.headD originPt) : WithTop ℝ) := by
  unfold stepStart
  split
  · next h => exact ⟨le_of_lt h, le_refl _⟩
  · next h => exact ⟨le_refl _, not_lt.mp h⟩

theorem stepEnd_le (ce : RPt) (idx : ℕ) (poly : Poly) (st : WithTop ℝ × ℕ × Bool) :
    (stepEnd ce idx poly st).1 ≤ st.1 ∧
    (stepEnd ce idx poly st).1 ≤ (point_distance ce (poly.getLastD originPt) : WithTop ℝ) := by
  unfold stepEnd
  split
  · next h => exact ⟨le_of_lt h, le_refl _⟩
  · next h => exact ⟨le_refl _, not_lt.mp h⟩

theorem bestStep_le (ce : RPt) (idx : ℕ) (poly : Poly) (st : WithTop ℝ × ℕ × Bool) :
    (bestStep ce idx poly st).1 ≤ st.1 ∧
    (bestStep ce idx poly st).1 ≤ (point_distance ce (poly.headD originPt) : WithTop ℝ) ∧
    (bestStep ce idx poly st).1 ≤ (point_distance ce (poly.getLastD originPt) : WithTop ℝ) := by
  have h1 := stepStart_le ce idx poly st
  have h2 := stepEnd_le ce idx poly (stepStart ce idx poly st)
  exact ⟨h2.1.trans h1.1, h2.1.trans h1.2, h2.2⟩

/-- The running minimum only decreases through the scan, and the result is a
lower bound for the distance to either endpoint of every scanned stroke. -/
theorem selectLoop_le (ce : RPt) :
    ∀ (rest : List Poly) (idx : ℕ) (st : WithTop ℝ × ℕ × Bool),
      (selectLoop ce idx st rest).1 ≤ st.1 ∧
      ∀ k, k < rest.length →
        (selectLoop ce idx st rest).1 ≤
          (point_distance ce ((rest.getD k []).headD originPt) : WithTop ℝ) ∧
        (selectLoop ce idx st rest).1 ≤
          (point_distance ce ((rest.getD k []).getLastD originPt) : WithTop ℝ) := by
  intro rest
  induction rest with
  | nil =>
    intro idx st
    exact ⟨le_refl _, fun k hk => absurd hk (by simp)⟩
  | cons poly r ih =>
    intro idx st
    have hb := bestStep_le ce idx poly st
    have hrec := ih (idx + 1) (bestStep ce idx poly st)
    refine ⟨hrec.1.trans hb.1, fun k hk => ?_⟩
    cases k with
    | zero =>
      exact ⟨hrec.1.trans hb.2.1, hrec.1.trans hb.2.2⟩
    | succ k =>
      rw [List.length_cons] at hk
      have hk' : k < r.length := by omega
      simpa using hrec.2 k hk'

/-- Whichever `(best_idx, best_reverse)` one scan step returns, either the
state is unchanged or it records this stroke's index and the distance to the
endpoint indicated by the reversal flag. -/
theorem bestStep_cases (ce : RPt) (idx : ℕ) (poly : Poly) (st : WithTop ℝ × ℕ × Bool) :
    bestStep ce idx poly st = st ∨
    ((bestStep ce idx poly st).2.1 = idx ∧
      (bestStep ce idx poly st).1 =
        ((if (bestStep ce idx poly st).2.2 then point_distance ce (poly.getLastD originPt)
          else point_distance ce (poly.headD originPt) : ℝ) : WithTop ℝ)) := by
  unfold bestStep stepEnd stepStart
  split
  · split
    · right; exact ⟨rfl, rfl⟩
    · right; exact ⟨rfl, rfl⟩
  · split
    · right; exact ⟨rfl, rfl⟩
    · left; rfl

/-- The scan result either is the initial state or records the index (in the
enumeration started at `idx`) and entry distance of some scanned stroke. -/
theorem selectLoop_cases (ce : RPt) :
    ∀ (rest : List Poly) (idx : ℕ) (st : WithTop ℝ × ℕ × Bool),
      selectLoop ce idx st rest = st ∨
      ∃ k, k < rest.length ∧ (selectLoop ce idx st rest).2.1 = idx + k ∧
        (selectLoop ce idx st rest).1 =
          ((if (selectLoop ce idx st rest).2.2
            then point_distance ce ((rest.getD k []).getLastD originPt)
            else point_distance ce ((rest.getD k []).headD originPt) : ℝ) : WithTop ℝ) := by
  intro rest
  induction rest with
  | nil => intro idx st; exact Or.inl rfl
  | cons poly r ih =>
    intro idx st
    have hrec := ih (idx + 1) (bestStep ce idx poly st)
    have hloop : selectLoop ce idx st (poly :: r) =
        selectLoop ce (idx + 1) (bestStep ce idx poly st) r := rfl
    rcases hrec with heq | ⟨k, hk, hidx, hval⟩
    · rcases bestStep_cases ce idx poly st with hb | ⟨hbidx, hbval⟩
      · left
        rw [hloop, heq, hb]
      · right
        refine ⟨0, by simp, ?_, ?_⟩
        · rw [hloop, heq, hbidx]
          omega
        · rw [hloop, heq]
          simpa using hbval
    · right
      refine ⟨k + 1, by simpa using hk, ?_, ?_⟩
      · rw [hloop, hidx]
        omega
      · rw [hloop]
        simpa using hval

/-- The distance from the current end to the point at which a stroke is
entered when chosen with reversal flag `rev`. -/
noncomputable def entryDist (ce : RPt) (poly : Poly) (rev : Bool) : ℝ :=
  if rev then point_distance ce (poly.getLastD originPt)
  else point_distance ce (poly.headD originPt)

theorem entryDist_eq_head_of_next (ce : RPt) (poly : Poly) (rev : Bool) :
    entryDist ce poly rev =
      point_distance ce ((if rev then poly.reverse else poly).headD originPt) := by
  cases rev with
  | true =>
    show point_distance ce (poly.getLastD originPt) =
      point_distance ce (poly.reverse.headD originPt)
    rw [List.headD_eq_head?, List.head?_reverse, ← List.getLastD_eq_getLast?]
  | false => rfl

/-- C7, amended.  The greedy pass is locally optimal, not globally: each
selection minimizes the very next hop — the entry distance of the chosen
stroke (in its chosen orientation) is at most the distance from the current
end to the start or to the end of every remaining stroke.  The claimed global
guarantee (total greedy travel never exceeding the input order's) fails, as
the counterexample shows. -/
theorem c7_each_hop_locally_minimal (ce : RPt) (r : List Poly) (hne : r ≠ [])
    (j : ℕ) (hj : j < r.length) :
    entryDist ce (r.getD (selectBest ce r).1 []) (selectBest ce r).2 ≤
      point_distance ce ((r.getD j []).headD originPt) ∧
    entryDist ce (r.getD (selectBest ce r).1 []) (selectBest ce r).2 ≤
      point_distance ce ((r.getD j []).getLastD originPt) := by
  have h0 : 0 < r.length := List.length_pos.mpr hne
  have hle := selectLoop_le ce r 0 (⊤, 0, false)
  rcases selectLoop_cases ce r 0 (⊤, 0, false) with heq | ⟨k, hk, hidx, hval⟩
  · exfalso
    have := (hle.2 0 h0).1
    rw [heq] at this
    simp at this
  · have hsel1 : (selectBest ce r).1 = k := by
      unfold selectBest
      omega
    have hentry : ((entryDist ce (r.getD (selectBest ce r).1 []) (selectBest ce r).2 : ℝ) :
        WithTop ℝ) = (selectLoop ce 0 (⊤, 0, false) r).1 := by
      rw [hval, hsel1]
      unfold entryDist selectBest
      rfl
    constructor
    · have hb := (hle.2 j hj).1
      rw [← hentry] at hb
      exact_mod_cast hb
    · have hb := (hle.2 j hj).2
      rw [← hentry] at hb
      exact_mod_cast hb

/-- Two degenerate strokes for the C7 amended-claim witness. -/
def polyW1 : Poly := [(3, 0), (3, 0)]

/-- See `polyW1`. -/
def polyW2 : Poly := [(1, 0), (1, 0)]

/-- Witness for the amended C7, at the first scan of a two-stroke list. -/
theorem c7_each_hop_locally_minimal_witness :
    entryDist (0, 0) ([polyW1, polyW2].getD (selectBest (0, 0) [polyW1, polyW2]).1 [])
        (selectBest (0, 0) [polyW1, polyW2]).2 ≤
      point_distance (0, 0) (([polyW1, polyW2].getD 0 []).headD originPt) :=
  (c7_each_hop_locally_minimal (0, 0) [polyW1, polyW2] (by simp) 0 (by norm_num)).1

/-! The concrete evaluation for the C7 counterexample. -/

theorem point_distance_horizontal (a b : ℝ) : point_distance (a, 0) (b, 0) = |a - b| := by
  simp only [point_distance]
  norm_num
  exact Real.sqrt_sq_eq_abs _

theorem pd_eval {a b c : ℝ} (h1 : a - b = c) (h2 : 0 ≤ c) :
    point_distance (a, 0) (b, 0) = c := by
  rw [point_distance_horizontal, h1, abs_of_nonneg h2]

theorem pd_eval_neg {a b c : ℝ} (h1 : b - a = c) (h2 : 0 ≤ c) :
    point_distance (a, 0) (b, 0) = c := by
  rw [point_distance_horizontal, abs_sub_comm, h1, abs_of_nonneg h2]

theorem coe_lt {a b : ℝ} (h : a < b) : (a : WithTop ℝ) < (b : WithTop ℝ) :=
  WithTop.coe_lt_coe.mpr h

theorem coe_not_lt {a b : ℝ} (h : b ≤ a) : ¬ ((a : WithTop ℝ) < (b : WithTop ℝ)) :=
  not_lt.mpr (by exact_mod_cast h)

theorem stepStart_lt {ce : RPt} {idx : ℕ} {poly : Poly} {st : WithTop ℝ × ℕ × Bool} {d : ℝ}
    (hd : point_distance ce (poly.headD originPt) = d)
    (h : (d : WithTop ℝ) < st.1) :
    stepStart ce idx poly st = ((d : WithTop ℝ), idx, false) := by
  unfold stepStart
  rw [hd]
  exact if_pos h

theorem stepStart_ge {ce : RPt} {idx : ℕ} {poly : Poly} {st : WithTop ℝ × ℕ × Bool} {d : ℝ}
    (hd : point_distance ce (poly.headD originPt) = d)
    (h : ¬ (d : WithTop ℝ) < st.1) :
    stepStart ce idx poly st = st := by
  unfold stepStart
  rw [hd]
  exact if_neg h

theorem stepEnd_ge {ce : RPt} {idx : ℕ} {poly : Poly} {st : WithTop ℝ × ℕ × Bool} {d : ℝ}
    (hd : point_distance ce (poly.getLastD originPt) = d)
    (h : ¬ (d : WithTop ℝ) < st.1) :
    stepEnd ce idx poly st = st := by
  unfold stepEnd
  rw [hd]
  exact if_neg h

def polyA : Poly := [(-1, 0), (0, 0)]
def polyB : Poly := [(-20, 0), (-21, 0)]
def polyC : Poly := [(10, 0), (11, 0)]
def polyD : Poly := [(60, 0), (61, 0)]

theorem scanB_from_origin : bestStep (0, 0) 0 polyB (⊤, 0, false) = (((20 : ℝ) : WithTop ℝ), 0, false) := by
  unfold bestStep
  rw [stepStart_lt (show point_distance (0, 0) (polyB.headD originPt) = 20 from
        pd_eval (by norm_num) (by norm_num)) (WithTop.coe_lt_top 20)]
  exact stepEnd_ge (show point_distance (0, 0) (polyB.getLastD originPt) = 21 from
        pd_eval (by norm_num) (by norm_num)) (coe_not_lt (by norm_num))

theorem scanC_from_origin : bestStep (0, 0) 1 polyC (((20 : ℝ) : WithTop ℝ), 0, false) =
    (((10 : ℝ) : WithTop ℝ), 1, false) := by
  unfold bestStep
  rw [stepStart_lt (show point_distance (0, 0) (polyC.headD originPt) = 10 from
        pd_eval_neg (by norm_num) (by norm_num)) (coe_lt (by norm_num))]
  exact stepEnd_ge (show point_distance (0, 0) (polyC.getLastD originPt) = 11 from
        pd_eval_neg (by norm_num) (by norm_num)) (coe_not_lt (by norm_num))

theorem scanD_from_origin : bestStep (0, 0) 2 polyD (((10 : ℝ) : WithTop ℝ), 1, false) =
    (((10 : ℝ) : WithTop ℝ), 1, false) := by
  unfold bestStep
  rw [stepStart_ge (show point_distance (0, 0) (polyD.headD originPt) = 60 from
        pd_eval_neg (by norm_num) (by norm_num)) (coe_not_lt (by norm_num))]
  exact stepEnd_ge (show point_distance (0, 0) (polyD.getLastD originPt) = 61 from
        pd_eval_neg (by norm_num) (by norm_num)) (coe_not_lt (by norm_num))

theorem selectBest_from_origin : selectBest (0, 0) [polyB, polyC, polyD] = (1, false) := by
  have e1 : selectLoop (0, 0) 0 (⊤, 0, false) [polyB, polyC, polyD] =
      selectLoop (0, 0) 1 (bestStep (0, 0) 0 polyB (⊤, 0, false)) [polyC, polyD] := rfl
  have e2 : selectLoop (0, 0) 1 (((20 : ℝ) : WithTop ℝ), 0, false) [polyC, polyD] =
      selectLoop (0, 0) 2 (bestStep (0, 0) 1 polyC (((20 : ℝ) : WithTop ℝ), 0, false))
        [polyD] := rfl
  have e3 : selectLoop (0, 0) 2 (((10 : ℝ) : WithTop ℝ), 1, false) [polyD] =
      selectLoop (0, 0) 3 (bestStep (0, 0) 2 polyD (((10 : ℝ) : WithTop ℝ), 1, false)) [] := rfl
  unfold selectBest
  rw [e1, scanB_from_origin, e2, scanC_from_origin, e3, scanD_from_origin]
  rfl

theorem scanB_from_C_end : bestStep (11, 0) 0 polyB (⊤, 0, false) = (((31 : ℝ) : WithTop ℝ), 0, false) := by
  unfold bestStep
  rw [stepStart_lt (show point_distance (11, 0) (polyB.headD originPt) = 31 from
        pd_eval (by norm_num) (by norm_num)) (WithTop.coe_lt_top 31)]
  exact stepEnd_ge (show point_distance (11, 0) (polyB.getLastD originPt) = 32 from
        pd_eval (by norm_num) (by norm_num)) (coe_not_lt (by norm_num))

theorem scanD_from_C_end : bestStep (11, 0) 1 polyD (((31 : ℝ) : WithTop ℝ), 0, false) =
    (((31 : ℝ) : WithTop ℝ), 0, false) := by
  unfold bestStep
  rw [stepStart_ge (show point_distance (11, 0) (polyD.headD originPt) = 49 from
        pd_eval_neg (by norm_num) (by norm_num)) (coe_not_lt (by norm_num))]
  exact stepEnd_ge (show point_distance (11, 0) (polyD.getLastD originPt) = 50 from
        pd_eval_neg (by norm_num) (by norm_num)) (coe_not_lt (by norm_num))

theorem selectBest_from_C_end : selectBest (11, 0) [polyB, polyD] = (0, false) := by
  have e1 : selectLoop (11, 0) 0 (⊤, 0, false) [polyB, polyD] =
      selectLoop (11, 0) 1 (bestStep (11, 0) 0 polyB (⊤, 0, false)) [polyD] := rfl
  have e2 : selectLoop (11, 0) 1 (((31 : ℝ) : WithTop ℝ), 0, false) [polyD] =
      selectLoop (11, 0) 2 (bestStep (11, 0) 1 polyD (((31 : ℝ) : WithTop ℝ), 0, false)) []
      := rfl
  unfold selectBest
  rw [e1, scanB_from_C_end, e2, scanD_from_C_end]
  rfl

theorem scanD_from_B_end : bestStep (-21, 0) 0 polyD (⊤, 0, false) = (((81 : ℝ) : WithTop ℝ), 0, false) := by
  unfold bestStep
  rw [stepStart_lt (show point_distance (-21, 0) (polyD.headD originPt) = 81 from
        pd_eval_neg (by norm_num) (by norm_num)) (WithTop.coe_lt_top 81)]
  exact stepEnd_ge (show point_distance (-21, 0) (polyD.getLastD originPt) = 82 from
        pd_eval_neg (by norm_num) (by norm_num)) (coe_not_lt (by norm_num))

theorem selectBest_from_B_end : selectBest (-21, 0) [polyD] = (0, false) := by
  have e1 : selectLoop (-21, 0) 0 (⊤, 0, false) [polyD] =
      selectLoop (-21, 0) 1 (bestStep (-21, 0) 0 polyD (⊤, 0, false)) [] := rfl
  unfold selectBest
  rw [e1, scanD_from_B_end]
  rfl

theorem greedyLoop_nil (ce : RPt) : greedyLoop ce [] = [] := by
  rw [greedyLoop]

theorem greedyLoop_cons_eval {ce : RPt} {p : Poly} {rest : List Poly} {i : ℕ}
    (hsel : selectBest ce (p :: rest) = (i, false)) :
    greedyLoop ce (p :: rest) =
      (p :: rest).getD i [] ::
        greedyLoop (((p :: rest).getD i []).getLastD originPt) ((p :: rest).eraseIdx i) := by
  rw [greedyLoop, hsel]
  rfl

theorem optimize_eval_ABCD : optimize_path_order [polyA, polyB, polyC, polyD] =
    [polyA, polyC, polyB, polyD] := by
  have h0 : optimize_path_order [polyA, polyB, polyC, polyD] =
      polyA :: greedyLoop (polyA.getLastD originPt) [polyB, polyC, polyD] := rfl
  rw [h0, show polyA.getLastD originPt = ((0 : ℝ), (0 : ℝ)) from rfl,
      greedyLoop_cons_eval selectBest_from_origin,
      show ([polyB, polyC, polyD] : List Poly).getD 1 [] = polyC from rfl,
      show ([polyB, polyC, polyD] : List Poly).eraseIdx 1 = [polyB, polyD] from rfl,
      show polyC.getLastD originPt = ((11 : ℝ), (0 : ℝ)) from rfl,
      greedyLoop_cons_eval selectBest_from_C_end,
      show ([polyB, polyD] : List Poly).getD 0 [] = polyB from rfl,
      show ([polyB, polyD] : List Poly).eraseIdx 0 = [polyD] from rfl,
      show polyB.getLastD originPt = ((-21 : ℝ), (0 : ℝ)) from rfl,
      greedyLoop_cons_eval selectBest_from_B_end,
      show ([polyD] : List Poly).getD 0 [] = polyD from rfl,
      show ([polyD] : List Poly).eraseIdx 0 = ([] : List Poly) from rfl,
      show polyD.getLastD originPt = ((61 : ℝ), (0 : ℝ)) from rfl,
      greedyLoop_nil]

theorem travel_input_eval : travel_distance [polyA, polyB, polyC, polyD] = 100 := by
  show point_distance ((0 : ℝ), (0 : ℝ)) ((-20 : ℝ), (0 : ℝ)) +
      (point_distance ((-21 : ℝ), (0 : ℝ)) ((10 : ℝ), (0 : ℝ)) +
        (point_distance ((11 : ℝ), (0 : ℝ)) ((60 : ℝ), (0 : ℝ)) + 0)) = 100
  rw [pd_eval (show (0 : ℝ) - (-20) = 20 by norm_num) (by norm_num),
      pd_eval_neg (show (10 : ℝ) - (-21) = 31 by norm_num) (by norm_num),
      pd_eval_neg (show (60 : ℝ) - 11 = 49 by norm_num) (by norm_num)]
  norm_num

theorem travel_greedy_eval : travel_distance [polyA, polyC, polyB, polyD] = 122 := by
  show point_distance ((0 : ℝ), (0 : ℝ)) ((10 : ℝ), (0 : ℝ)) +
      (point_distance ((11 : ℝ), (0 : ℝ)) ((-20 : ℝ), (0 : ℝ)) +
        (point_distance ((-21 : ℝ), (0 : ℝ)) ((60 : ℝ), (0 : ℝ)) + 0)) = 122
  rw [pd_eval_neg (show (10 : ℝ) - 0 = 10 by norm_num) (by norm_num),
      pd_eval (show (11 : ℝ) - (-20) = 31 by norm_num) (by norm_num),
      pd_eval_neg (show (60 : ℝ) - (-21) = 81 by norm_num) (by norm_num)]
  norm_num

/-- C7, counterexample.  Four collinear strokes: in input order the pen-up
travel is `20 + 31 + 49 = 100`, but the greedy pass first jumps to the nearby
stroke on the other side (`polyC`), then must backtrack to `polyB` and cross
the whole range to `polyD`, totalling `10 + 31 + 81 = 122 > 100`.  The greedy
ordering is therefore *not* always at most the original order's travel. -/
theorem c7_greedy_not_always_better :
    ¬ (travel_distance (optimize_path_order [polyA, polyB, polyC, polyD]) ≤
        travel_distance [polyA, polyB, polyC, polyD]) := by
  rw [optimize_eval_ABCD, travel_greedy_eval, travel_input_eval]
  norm_num


end PathOptimizer
